import Mathlib

/-!
Shallow embedding of the discord-music core: the audio cache with
recency-based eviction (src/cache_manager.py, src/database.py), the per-guild
playback queue (src/queue_manager.py, src/cogs/music.py), and the source
resolution pipeline (src/ytdl_source.py).

Timestamps (the SQLite datetime strings cached_at / last_played) are modelled
as naturals supplied by the caller; the file system is an association list
from path to byte size; the SQLite audio_cache table is a list of rows in
rowid (insertion) order.
-/

namespace MusicBot

/-! ### Data model: audio_cache rows (src/database.py) -/

/-- One row of the audio_cache table (url is UNIQUE in the schema). -/
structure CacheRecord where
  url : String
  file_path : String
  title : String
  duration : Int
  file_size : Nat
  cached_at : Nat
  last_played : Nat
deriving DecidableEq, Repr

/-- The durable state seen by cache_manager: the audio_cache rows in rowid
order, and the local file system as a list of (path, size) pairs. -/
structure CacheState where
  records : List CacheRecord
  fs : List (String × Nat)
deriving DecidableEq, Repr

/-! ### File-system primitives (os.path.isfile, os.path.getsize, os.remove) -/

/-- Size of the file at a path, none when the file does not exist. -/
def getsize : List (String × Nat) → String → Option Nat
  | [], _ => none
  | (p, n) :: fs, path => if p = path then some n else getsize fs path

/-- os.path.isfile. -/
def isfile (fs : List (String × Nat)) (path : String) : Bool :=
  (getsize fs path).isSome

/-- Remove every entry with the given path. -/
def removeFile : List (String × Nat) → String → List (String × Nat)
  | [], _ => []
  | (p, n) :: fs, path =>
    if p = path then removeFile fs path else (p, n) :: removeFile fs path

/-- os.remove: fails (FileNotFoundError) when the file is absent. -/
def removeFileStrict (fs : List (String × Nat)) (path : String) :
    Except Unit (List (String × Nat)) :=
  if isfile fs path then .ok (removeFile fs path) else .error ()

/-- The try / except FileNotFoundError: pass block inside
enforce_cache_limit: a missing file is tolerated silently. -/
def tryRemoveFile (fs : List (String × Nat)) (path : String) :
    List (String × Nat) :=
  match removeFileStrict fs path with
  | .ok fs2 => fs2
  | .error _ => fs

/-- Write a file (the download step): replaces any previous file at path. -/
def setFile (fs : List (String × Nat)) (path : String) (size : Nat) :
    List (String × Nat) :=
  (path, size) :: removeFile fs path

/-! ### Audio cache CRUD (src/database.py) -/

/-- SELECT * FROM audio_cache WHERE url = ? (url is UNIQUE). -/
def get_cached_track (url : String) : List CacheRecord → Option CacheRecord
  | [] => none
  | r :: rs => if r.url = url then some r else get_cached_track url rs

/-- INSERT ... ON CONFLICT(url) DO UPDATE: overwrite replaces path, title,
duration and size and resets last_played to now; insert also sets cached_at. -/
def upsert_cached_track (url file_path title : String) (duration : Int)
    (file_size now : Nat) : List CacheRecord → List CacheRecord
  | [] => [⟨url, file_path, title, duration, file_size, now, now⟩]
  | r :: rs =>
    if r.url = url then
      { r with
        file_path := file_path, title := title, duration := duration,
        file_size := file_size, last_played := now } :: rs
    else r :: upsert_cached_track url file_path title duration file_size now rs

/-- UPDATE audio_cache SET last_played = now WHERE url = ?. -/
def touch_cached_track (url : String) (now : Nat)
    (recs : List CacheRecord) : List CacheRecord :=
  recs.map fun r => if r.url = url then { r with last_played := now } else r

/-- DELETE FROM audio_cache WHERE url = ?. -/
def delete_cached_track (url : String) : List CacheRecord → List CacheRecord
  | [] => []
  | r :: rs =>
    if r.url = url then delete_cached_track url rs
    else r :: delete_cached_track url rs

/-- Comparison used by ORDER BY last_played ASC. -/
def lpLe (a b : CacheRecord) : Prop := a.last_played ≤ b.last_played

instance : DecidableRel lpLe := fun a b =>
  inferInstanceAs (Decidable (a.last_played ≤ b.last_played))

instance : IsTotal CacheRecord lpLe := ⟨fun a b => Nat.le_total a.last_played b.last_played⟩

instance : IsTrans CacheRecord lpLe := ⟨fun _ _ _ h h2 => Nat.le_trans h h2⟩

/-- SELECT * FROM audio_cache ORDER BY last_played ASC (a stable sort;
SQLite leaves the order of equal timestamps unspecified, so theorems that
depend on the order assume distinct last_played values). -/
def get_all_cached_tracks (recs : List CacheRecord) : List CacheRecord :=
  List.insertionSort lpLe recs

/-- SELECT COALESCE(SUM(file_size), 0) FROM audio_cache. -/
def get_total_cache_size (recs : List CacheRecord) : Nat :=
  (recs.map (·.file_size)).sum

/-- The last element of a list (specification helper for the most recently
played record in an ascending recency sort). -/
def lastEntry : List CacheRecord → Option CacheRecord
  | [] => none
  | [a] => some a
  | _ :: b :: t => lastEntry (b :: t)

/-! ### Cache manager (src/cache_manager.py) -/

/-- MAX_CACHE_SIZE_MB = 2000. -/
def MAX_CACHE_SIZE_MB : Nat := 2000

/-- max_bytes = MAX_CACHE_SIZE_MB * 1024 * 1024. Theorems take the budget
as a parameter maxBytes standing for this configured constant. -/
def defaultMaxBytes : Nat := MAX_CACHE_SIZE_MB * 1024 * 1024

/-- The eviction loop of enforce_cache_limit: walks the snapshot returned by
get_all_cached_tracks while the running total exceeds the budget, removing
the backing file (missing files tolerated) and deleting the row. The running
total is a Python int, modelled as Int. Returns the list of evicted rows in
eviction order together with the final state. -/
def evictLoop (maxBytes : Nat) :
    List CacheRecord → Int → CacheState → List CacheRecord × CacheState
  | [], _, st => ([], st)
  | t :: ts, total, st =>
    if total ≤ (maxBytes : Int) then ([], st)
    else
      (t :: (evictLoop maxBytes ts (total - (t.file_size : Int))
          ⟨delete_cached_track t.url st.records,
           tryRemoveFile st.fs t.file_path⟩).1,
       (evictLoop maxBytes ts (total - (t.file_size : Int))
          ⟨delete_cached_track t.url st.records,
           tryRemoveFile st.fs t.file_path⟩).2)

/-- enforce_cache_limit: evict least-recently-played rows until the recorded
total is within the budget. -/
def enforce_cache_limit (maxBytes : Nat) (st : CacheState) :
    List CacheRecord × CacheState :=
  if (get_total_cache_size st.records : Int) ≤ (maxBytes : Int) then ([], st)
  else
    evictLoop maxBytes (get_all_cached_tracks st.records)
      (get_total_cache_size st.records : Int) st

/-- register_cached_file (the put operation): computes the file size
(os.path.getsize raises when the file is missing, modelled as none), upserts
the row, then immediately runs eviction. -/
def register_cached_file (maxBytes now : Nat) (url file_path title : String)
    (duration : Int) (st : CacheState) :
    Option (List CacheRecord × CacheState) :=
  match getsize st.fs file_path with
  | none => none
  | some file_size =>
    some (enforce_cache_limit maxBytes
      ⟨upsert_cached_track url file_path title duration file_size now
        st.records, st.fs⟩)

/-- get_cached_path (the get operation): on a hit with the file present,
refresh recency and return the path; on a row whose file is gone, delete the
row and report a miss; otherwise a plain miss. -/
def get_cached_path (now : Nat) (url : String) (st : CacheState) :
    Option String × CacheState :=
  match get_cached_track url st.records with
  | some row =>
    if isfile st.fs row.file_path then
      (some row.file_path, ⟨touch_cached_track url now st.records, st.fs⟩)
    else
      (none, ⟨delete_cached_track url st.records, st.fs⟩)
  | none => (none, st)

/-! ### Playback queue (src/queue_manager.py, src/cogs/music.py) -/

/-- A queued track (discord.Member modelled by the requester id). -/
structure SongEntry where
  title : String
  url : String
  duration : Int
  requester : Nat
  thumbnail : Option String
deriving DecidableEq, Repr

/-- State of the playback engine (discord.VoiceClient) for one guild. -/
inductive EngineState
  | playing
  | paused
  | stopped
deriving DecidableEq, Repr

/-- VoiceClient.is_playing(): true only while actively playing; a paused
player is not playing. -/
def is_playing : Option EngineState → Bool
  | some .playing => true
  | _ => false

/-- VoiceClient.is_paused(). -/
def is_paused : Option EngineState → Bool
  | some .paused => true
  | _ => false

/-- The guard the /skip command and the Skip button use before calling
GuildQueue.skip: the engine is active (playing or paused). -/
def engineActive (vc : Option EngineState) : Bool :=
  is_playing vc || is_paused vc

/-- GuildQueue: the pending deque (head plays next), the current slot, and
the attached voice client. -/
structure GuildQueue where
  queue : List SongEntry
  current : Option SongEntry
  voice_client : Option EngineState
deriving DecidableEq, Repr

/-- GuildQueue.__init__. -/
def GuildQueue.init : GuildQueue := ⟨[], none, none⟩

/-- append to the end of the deque. -/
def GuildQueue.add (gq : GuildQueue) (e : SongEntry) : GuildQueue :=
  { gq with queue := gq.queue ++ [e] }

/-- appendleft: insert at position 0. -/
def GuildQueue.add_next (gq : GuildQueue) (e : SongEntry) : GuildQueue :=
  { gq with queue := e :: gq.queue }

/-- popleft, or None on an empty deque. -/
def GuildQueue.pop_next (gq : GuildQueue) : Option SongEntry × GuildQueue :=
  match gq.queue with
  | [] => (none, gq)
  | e :: rest => (some e, { gq with queue := rest })

/-- GuildQueue.skip: stop the voice client only when it reports is_playing();
returns the new state and whether stop() was invoked. The queue fields are
never touched. -/
def GuildQueue.skip (gq : GuildQueue) : GuildQueue × Bool :=
  if is_playing gq.voice_client then
    ({ gq with voice_client := some .stopped }, true)
  else (gq, false)

/-- GuildQueue.clear. -/
def GuildQueue.clear (gq : GuildQueue) : GuildQueue :=
  { gq with queue := [], current := none }

/-- The queue mutation performed by Music._play_next under the per-guild
lock: pop the pending head into current, or set current to None when the
deque is empty. This is the single advance operation. -/
def advance (gq : GuildQueue) : GuildQueue :=
  match gq.pop_next with
  | (none, gq2) => { gq2 with current := none }
  | (some e, gq2) => { gq2 with current := some e }

/-! ### Guild registry (src/queue_manager.py QueueManager) -/

/-- QueueManager: the _guilds dict, guild id to GuildQueue, in insertion
order. -/
structure QueueManager where
  guilds : List (Nat × GuildQueue)
deriving DecidableEq, Repr

/-- Dict lookup. -/
def lookupGuild (gid : Nat) : List (Nat × GuildQueue) → Option GuildQueue
  | [] => none
  | (g, q) :: m => if g = gid then some q else lookupGuild gid m

/-- QueueManager.get: create the queue lazily on first access, then return
the stored queue. -/
def QueueManager.get (m : QueueManager) (gid : Nat) :
    GuildQueue × QueueManager :=
  match lookupGuild gid m.guilds with
  | some q => (q, m)
  | none => (GuildQueue.init, ⟨m.guilds ++ [(gid, GuildQueue.init)]⟩)

/-- Dict entry removal (first occurrence; keys are unique in a dict). -/
def removeGuild (gid : Nat) :
    List (Nat × GuildQueue) → List (Nat × GuildQueue)
  | [] => []
  | (g, q) :: m => if g = gid then m else (g, q) :: removeGuild gid m

/-- QueueManager.remove, i.e. self._guilds.pop(guild_id, None). -/
def QueueManager.remove (m : QueueManager) (gid : Nat) : QueueManager :=
  ⟨removeGuild gid m.guilds⟩

/-- In-place update of the stored queue at a key. -/
def updateGuild (gid : Nat) (f : GuildQueue → GuildQueue) :
    List (Nat × GuildQueue) → List (Nat × GuildQueue)
  | [] => []
  | (g, q) :: m =>
    if g = gid then (g, f q) :: m else (g, q) :: updateGuild gid f m

/-- An operation (add, add_next, advance, clear, shuffle, ...) applied to the
queue object returned by get: Python mutates the shared object in place,
modelled as updating the registry entry for that guild. -/
def QueueManager.mutate (m : QueueManager) (gid : Nat)
    (f : GuildQueue → GuildQueue) : QueueManager :=
  ⟨updateGuild gid f m.guilds⟩

/-! ### Resolver (src/ytdl_source.py) -/

/-- The yt-dlp options dict: the extraction profile (format selector, client
identity and provider options) handed to yt_dlp.YoutubeDL. -/
structure YtdlOptions where
  format : String
  outtmpl : String
  restrictfilenames : Bool
  noplaylist : Bool
  nocheckcertificate : Bool
  ignoreerrors : Bool
  logtostderr : Bool
  quiet : Bool
  no_warnings : Bool
  default_search : String
  source_address : String
  geo_bypass : Bool
deriving DecidableEq, Repr

/-- The module-level _YTDL_OPTIONS dict. -/
def _YTDL_OPTIONS : YtdlOptions :=
  { format := "bestaudio/best"
  , outtmpl := "%(extractor)s-%(id)s-%(title)s.%(ext)s"
  , restrictfilenames := true
  , noplaylist := true
  , nocheckcertificate := true
  , ignoreerrors := false
  , logtostderr := false
  , quiet := true
  , no_warnings := true
  , default_search := "scsearch"
  , source_address := "0.0.0.0"
  , geo_bypass := true }

/-- _YTDL_PLAYLIST_OPTIONS: same profile with playlist support on. -/
def _YTDL_PLAYLIST_OPTIONS : YtdlOptions :=
  { _YTDL_OPTIONS with noplaylist := false, ignoreerrors := true }

/-- The complete ordered list of extraction profiles that the metadata path
_extract_info ever passes to the provider: the source constructs exactly one
options dict and performs a single extract_info call with it. -/
def metadataProfiles : List YtdlOptions := [_YTDL_OPTIONS]

/-- One upstream info dict (the fields this code reads). A field is none
when the key is absent. -/
structure MetaDict where
  title : Option String
  url : Option String
  webpage_url : Option String
  duration : Option Int
  thumbnail : Option String
deriving DecidableEq, Repr

/-- An extract_info return value: a flat result, or a playlist result whose
entries may individually be None (ignoreerrors). -/
structure RawResult where
  entries : Option (List (Option MetaDict))
  info : MetaDict
deriving DecidableEq, Repr

/-- Errors surfaced by the resolver. -/
inductive ExtractErr
  | provider (msg : String)
  | valueErr (msg : String)
  | entryErr
  | keyErr (key : String)
deriving DecidableEq, Repr

/-- The extraction provider (yt_dlp.YoutubeDL(opts).extract_info): either an
exception, or a return value that may be None. -/
abbrev Extractor := YtdlOptions → String → Except String (Option RawResult)

/-- _extract_info: a single extract_info call with _YTDL_OPTIONS; a None
return raises ValueError, a provider exception propagates unchanged. -/
def _extract_info (extract : Extractor) (query : String) :
    Except ExtractErr RawResult :=
  match extract _YTDL_OPTIONS query with
  | .error e => .error (.provider e)
  | .ok none => .error (.valueErr ("Could not retrieve audio for: " ++ query))
  | .ok (some d) => .ok d

/-- _extract_playlist: the same single call with _YTDL_PLAYLIST_OPTIONS. -/
def _extract_playlist (extract : Extractor) (url : String) :
    Except ExtractErr RawResult :=
  match extract _YTDL_PLAYLIST_OPTIONS url with
  | .error e => .error (.provider e)
  | .ok none => .error (.valueErr ("Could not retrieve playlist for: " ++ url))
  | .ok (some d) => .ok d

/-- Python a or b on optional strings: the empty string is falsy. -/
def pyOrStr (a b : Option String) : Option String :=
  match a with
  | some s => if s = "" then b else some s
  | none => b

/-- The normalized metadata dict built by fetch_metadata_only and
fetch_playlist_metadata. -/
structure MetaOut where
  title : String
  url : Option String
  duration : Int
  thumbnail : String
deriving DecidableEq, Repr

/-- The normalization applied per entry: title defaults to Unknown, url is
webpage_url when truthy else the raw url, duration is int(x or 0), thumbnail
defaults to the empty string. -/
def normalizeMeta (d : MetaDict) : MetaOut :=
  { title := d.title.getD "Unknown"
  , url := pyOrStr d.webpage_url d.url
  , duration := d.duration.getD 0
  , thumbnail := d.thumbnail.getD "" }

/-- The data = data["entries"][0] unwrap: on a playlist result take the first
entry; an empty entries list (IndexError) or a None first entry is an
in-flight exception, modelled as entryErr. -/
def unwrapFirstEntry (r : RawResult) : Except ExtractErr MetaDict :=
  match r.entries with
  | none => .ok r.info
  | some l =>
    match l.head? with
    | some (some d) => .ok d
    | some none => .error .entryErr
    | none => .error .entryErr

/-- YTDLSource.fetch_metadata_only. -/
def fetch_metadata_only (extract : Extractor) (query : String) :
    Except ExtractErr MetaOut :=
  match _extract_info extract query with
  | .error e => .error e
  | .ok data =>
    match unwrapFirstEntry data with
    | .error e => .error e
    | .ok d => .ok (normalizeMeta d)

/-- YTDLSource.fetch_playlist_metadata: entries that are None are skipped,
every other entry is normalized in order. -/
def fetch_playlist_metadata (extract : Extractor) (url : String) :
    Except ExtractErr (List MetaOut) :=
  match _extract_playlist extract url with
  | .error e => .error e
  | .ok data =>
    .ok ((data.entries.getD []).filterMap fun e => e.map normalizeMeta)

/-! ### Resolve-for-playback (YTDLSource.from_query) -/

/-- Result of _extract_and_download: the info dict after the entries unwrap,
the expected downloaded file path, and the size of that file when it exists
on disk after the download (none when it does not). -/
structure DlOutcome where
  data : MetaDict
  file : String
  written : Option Nat
deriving DecidableEq, Repr

/-- The downloader (_extract_and_download run in the executor): an exception
message or an outcome. -/
abbrev Downloader := String → Except String DlOutcome

/-- Which of the four playback paths produced the audio source. -/
inductive PlayKind
  | localFile (path : String)
  | cachedHit (path : String)
  | downloaded (path : String)
  | streamed (streamUrl : String)
deriving DecidableEq, Repr

/-- url=data.get("webpage_url") or query, the key under which the download
is registered. -/
def registerUrl (d : MetaDict) (query : String) : String :=
  match d.webpage_url with
  | some s => if s = "" then query else s
  | none => query

/-- The try block of step 2 of from_query: on a successful download whose
file exists, register it in the cache and play it; any failure (exception or
missing file) yields none and from_query falls through to streaming. -/
def attemptDownload (maxBytes now : Nat) (dl : Downloader) (query : String)
    (st : CacheState) : Option (PlayKind × CacheState) :=
  match dl query with
  | .error _ => none
  | .ok out =>
    match out.written with
    | none => none
    | some size =>
      match register_cached_file maxBytes now (registerUrl out.data query)
        out.file (out.data.title.getD "Unknown") (out.data.duration.getD 0)
        ⟨st.records, setFile st.fs out.file size⟩ with
      | some (_, st3) => some (.downloaded out.file, st3)
      | none => none

/-- YTDLSource.from_query: local file, then cache hit, then download and
cache, then direct streaming; only failure of the final streaming path
surfaces an error. -/
def from_query (maxBytes now : Nat) (dl : Downloader) (stream : Extractor)
    (query : String) (st : CacheState) :
    Except ExtractErr (PlayKind × CacheState) :=
  if isfile st.fs query then .ok (.localFile query, st)
  else
    match get_cached_path now query st with
    | (some path, st1) => .ok (.cachedHit path, st1)
    | (none, st1) =>
      match attemptDownload maxBytes now dl query st1 with
      | some result => .ok result
      | none =>
        match _extract_info stream query with
        | .error e => .error e
        | .ok data =>
          match unwrapFirstEntry data with
          | .error e => .error e
          | .ok d =>
            match d.url with
            | some u => .ok (.streamed u, st1)
            | none => .error (.keyErr "url")

/-! ### Helper lemmas about the cache primitives -/

theorem getsize_setFile_self (fs : List (String × Nat)) (path : String)
    (size : Nat) : getsize (setFile fs path size) path = some size := by
  simp [setFile, getsize]

theorem delete_sublist (url : String) :
    ∀ l, (delete_cached_track url l).Sublist l := by
  intro l
  induction l with
  | nil => simp [delete_cached_track]
  | cons a as ih =>
    simp only [delete_cached_track]
    split
    · exact ih.cons a
    · exact ih.cons₂ a

theorem mem_delete {url : String} {l : List CacheRecord} {r : CacheRecord}
    (h : r ∈ delete_cached_track url l) : r ∈ l ∧ r.url ≠ url := by
  induction l with
  | nil => simp [delete_cached_track] at h
  | cons a as ih =>
    by_cases hau : a.url = url
    · rw [show delete_cached_track url (a :: as) = delete_cached_track url as
        from by simp [delete_cached_track, hau]] at h
      exact ⟨List.Mem.tail _ (ih h).1, (ih h).2⟩
    · rw [show delete_cached_track url (a :: as)
          = a :: delete_cached_track url as
        from by simp [delete_cached_track, hau]] at h
      rcases List.mem_cons.mp h with rfl | h2
      · exact ⟨List.mem_cons_self _ _, hau⟩
      · exact ⟨List.Mem.tail _ (ih h2).1, (ih h2).2⟩

theorem url_not_in_delete (url : String) (l : List CacheRecord) :
    url ∉ (delete_cached_track url l).map (·.url) := by
  intro h
  obtain ⟨r, hr, hru⟩ := List.mem_map.mp h
  exact (mem_delete hr).2 hru

theorem get_cached_track_delete_self (url : String) :
    ∀ l, get_cached_track url (delete_cached_track url l) = none := by
  intro l
  induction l with
  | nil => rfl
  | cons a as ih =>
    by_cases hau : a.url = url
    · simpa [delete_cached_track, hau] using ih
    · simpa [delete_cached_track, get_cached_track, hau] using ih

theorem get_cached_track_touch (url : String) (now : Nat) :
    ∀ l, get_cached_track url (touch_cached_track url now l) =
      (get_cached_track url l).map fun r => { r with last_played := now } := by
  intro l
  induction l with
  | nil => rfl
  | cons a as ih =>
    by_cases hau : a.url = url
    · simp [touch_cached_track, get_cached_track, hau]
    · simpa [touch_cached_track, get_cached_track, hau] using ih

theorem delete_eq_filter (url : String) :
    ∀ l, delete_cached_track url l
      = l.filter fun r => decide (r.url ≠ url) := by
  intro l
  induction l with
  | nil => rfl
  | cons a as ih =>
    by_cases hau : a.url = url
    · simp [delete_cached_track, hau, ih]
    · simp [delete_cached_track, hau, ih]

theorem delete_perm_of_perm_cons {t : CacheRecord} {ts l : List CacheRecord}
    (hperm : l.Perm (t :: ts)) (hnodup : (l.map (·.url)).Nodup) :
    (delete_cached_track t.url l).Perm ts := by
  have hts : ∀ r ∈ ts, r.url ≠ t.url := by
    have h1 : (l.map (·.url)).Perm ((t :: ts).map (·.url)) := hperm.map _
    have h2 : ((t :: ts).map (·.url)).Nodup := h1.nodup hnodup
    simp only [List.map_cons, List.nodup_cons] at h2
    intro r hr heq
    exact h2.1 (heq ▸ List.mem_map_of_mem _ hr)
  rw [delete_eq_filter]
  have h3 := hperm.filter fun r => decide (r.url ≠ t.url)
  have h4 : (t :: ts).filter (fun r => decide (r.url ≠ t.url))
      = ts.filter fun r => decide (r.url ≠ t.url) := by
    simp [List.filter_cons]
  have h5 : ts.filter (fun r => decide (r.url ≠ t.url)) = ts :=
    List.filter_eq_self.mpr fun r hr => by simpa using hts r hr
  rw [h4, h5] at h3
  exact h3

theorem total_perm {l l2 : List CacheRecord} (h : l.Perm l2) :
    get_total_cache_size l = get_total_cache_size l2 := by
  unfold get_total_cache_size
  exact (h.map (·.file_size)).sum_eq

theorem size_le_total {r : CacheRecord} {l : List CacheRecord} (h : r ∈ l) :
    r.file_size ≤ get_total_cache_size l :=
  List.le_sum_of_mem (List.mem_map_of_mem _ h)

theorem total_cons (t : CacheRecord) (ts : List CacheRecord) :
    get_total_cache_size (t :: ts) = t.file_size + get_total_cache_size ts := by
  simp [get_total_cache_size]

theorem mem_upsert_url {url file_path title : String} {duration : Int}
    {file_size now : Nat} {x : String} :
    ∀ {l : List CacheRecord},
      x ∈ (upsert_cached_track url file_path title duration file_size now
        l).map (·.url) →
      x = url ∨ x ∈ l.map (·.url) := by
  intro l
  induction l with
  | nil => simp [upsert_cached_track]
  | cons a as ih =>
    by_cases hau : a.url = url
    · simp only [upsert_cached_track, if_pos hau, List.map_cons,
        List.mem_cons]
      rintro (rfl | h)
      · right; left; rfl
      · right; right; exact h
    · simp only [upsert_cached_track, if_neg hau, List.map_cons,
        List.mem_cons]
      rintro (rfl | h)
      · right; left; rfl
      · rcases ih h with h2 | h2
        · left; exact h2
        · right; right; exact h2

theorem upsert_nodup {url file_path title : String} {duration : Int}
    {file_size now : Nat} :
    ∀ {l : List CacheRecord}, (l.map (·.url)).Nodup →
      ((upsert_cached_track url file_path title duration file_size now
        l).map (·.url)).Nodup := by
  intro l
  induction l with
  | nil => simp [upsert_cached_track]
  | cons a as ih =>
    intro h
    simp only [List.map_cons, List.nodup_cons] at h
    by_cases hau : a.url = url
    · simp only [upsert_cached_track, if_pos hau, List.map_cons,
        List.nodup_cons]
      exact ⟨h.1, h.2⟩
    · simp only [upsert_cached_track, if_neg hau, List.map_cons,
        List.nodup_cons]
      refine ⟨fun hmem => ?_, ih h.2⟩
      rcases mem_upsert_url hmem with rfl | h2
      · exact hau rfl
      · exact h.1 h2

theorem upsert_spec (url file_path title : String) (duration : Int)
    (file_size now : Nat) :
    ∀ {l : List CacheRecord}, (∀ r ∈ l, r.last_played < now) →
      ∃ rN, rN ∈ upsert_cached_track url file_path title duration file_size
          now l ∧
        rN.url = url ∧ rN.file_path = file_path ∧
        rN.file_size = file_size ∧ rN.last_played = now ∧
        ∀ x ∈ upsert_cached_track url file_path title duration file_size
          now l, x = rN ∨ x.last_played < now := by
  intro l
  induction l with
  | nil =>
    intro _
    refine ⟨_, List.mem_singleton_self _, rfl, rfl, rfl, rfl, ?_⟩
    intro x hx
    left
    exact List.mem_singleton.mp hx
  | cons a as ih =>
    intro hfresh
    by_cases hau : a.url = url
    · simp only [upsert_cached_track, if_pos hau]
      refine ⟨_, List.mem_cons_self _ _, hau, rfl, rfl, rfl, ?_⟩
      intro x hx
      rcases List.mem_cons.mp hx with rfl | hx2
      · left; rfl
      · right; exact hfresh x (List.Mem.tail _ hx2)
    · simp only [upsert_cached_track, if_neg hau]
      obtain ⟨rN, hmem, h1, h2, h3, h4, hall⟩ :=
        ih fun r hr => hfresh r (List.Mem.tail _ hr)
      refine ⟨rN, List.Mem.tail _ hmem, h1, h2, h3, h4, ?_⟩
      intro x hx
      rcases List.mem_cons.mp hx with rfl | hx2
      · right; exact hfresh x (List.mem_cons_self _ _)
      · exact hall x hx2

/-! ### Helper lemmas about lastEntry and the recency sort -/

theorem lastEntry_mem :
    ∀ {l : List CacheRecord} {r : CacheRecord}, lastEntry l = some r → r ∈ l
  | [], r, h => by simp [lastEntry] at h
  | [a], r, h => by
    simp only [lastEntry, Option.some.injEq] at h
    simp [h]
  | a :: b :: t, r, h => by
    simp only [lastEntry] at h
    exact List.Mem.tail _ (lastEntry_mem h)

theorem lastEntry_of_sorted_max :
    ∀ {l : List CacheRecord} {r : CacheRecord}, l.Pairwise lpLe → r ∈ l →
      (∀ x ∈ l, x = r ∨ x.last_played < r.last_played) →
      lastEntry l = some r
  | [], r, _, hm, _ => absurd hm (List.not_mem_nil r)
  | [a], r, _, hm, _ => by
    rcases List.mem_singleton.mp hm with rfl
    rfl
  | a :: b :: t, r, hs, hm, hmax => by
    have htail : r ∈ b :: t := by
      rcases List.mem_cons.mp hm with rfl | h
      · rcases hmax b (by simp) with rfl | hlt
        · exact List.mem_cons_self _ _
        · have hle : lpLe r b := (List.pairwise_cons.mp hs).1 b (by simp)
          have hle2 : r.last_played ≤ b.last_played := hle
          omega
      · exact h
    simp only [lastEntry]
    exact lastEntry_of_sorted_max (List.pairwise_cons.mp hs).2 htail
      fun x hx => hmax x (List.Mem.tail _ hx)

theorem get_all_perm (recs : List CacheRecord) :
    (get_all_cached_tracks recs).Perm recs :=
  List.perm_insertionSort lpLe recs

theorem get_all_sorted (recs : List CacheRecord) :
    (get_all_cached_tracks recs).Pairwise lpLe :=
  List.sorted_insertionSort lpLe recs

/-! ### Helper lemmas about the eviction loop -/

theorem evictLoop_fs_eq (maxBytes : Nat) :
    ∀ (ts : List CacheRecord) (total : Int) (recs : List CacheRecord)
      (fs fs2 : List (String × Nat)),
      (evictLoop maxBytes ts total ⟨recs, fs⟩).1 =
        (evictLoop maxBytes ts total ⟨recs, fs2⟩).1 ∧
      (evictLoop maxBytes ts total ⟨recs, fs⟩).2.records =
        (evictLoop maxBytes ts total ⟨recs, fs2⟩).2.records
  | [], total, recs, fs, fs2 => by simp [evictLoop]
  | t :: ts, total, recs, fs, fs2 => by
    by_cases h : total ≤ (maxBytes : Int)
    · simp [evictLoop, h]
    · obtain ⟨h1, h2⟩ := evictLoop_fs_eq maxBytes ts
        (total - (t.file_size : Int)) (delete_cached_track t.url recs)
        (tryRemoveFile fs t.file_path) (tryRemoveFile fs2 t.file_path)
      simp only [evictLoop, if_neg h]
      exact ⟨by rw [h1], h2⟩

theorem evictLoop_records_sublist (maxBytes : Nat) :
    ∀ (ts : List CacheRecord) (total : Int) (st : CacheState),
      (evictLoop maxBytes ts total st).2.records.Sublist st.records
  | [], _, st => by simp [evictLoop]
  | t :: ts, total, st => by
    by_cases h : total ≤ (maxBytes : Int)
    · simp [evictLoop, h]
    · simp only [evictLoop, if_neg h]
      exact (evictLoop_records_sublist maxBytes ts _ _).trans
        (delete_sublist t.url st.records)

theorem evictLoop_evicted_deleted (maxBytes : Nat) :
    ∀ (ts : List CacheRecord) (total : Int) (st : CacheState)
      (t : CacheRecord), t ∈ (evictLoop maxBytes ts total st).1 →
      t.url ∉ (evictLoop maxBytes ts total st).2.records.map (·.url)
  | [], total, st, t, hmem => by simp [evictLoop] at hmem
  | hd :: ts, total, st, t, hmem => by
    by_cases h : total ≤ (maxBytes : Int)
    · simp [evictLoop, h] at hmem
    · simp only [evictLoop, if_neg h] at hmem ⊢
      rcases List.mem_cons.mp hmem with rfl | h2
      · intro hurl
        obtain ⟨r, hr, hru⟩ := List.mem_map.mp hurl
        have hr2 : r ∈ delete_cached_track t.url st.records :=
          (evictLoop_records_sublist maxBytes ts _ _).mem hr
        exact (mem_delete hr2).2 hru
      · exact evictLoop_evicted_deleted maxBytes ts _ _ t h2

theorem evictLoop_spec (maxBytes : Nat) :
    ∀ (ts : List CacheRecord) (st : CacheState) (total : Int),
      ts.Perm st.records → (st.records.map (·.url)).Nodup →
      total = (get_total_cache_size st.records : Int) →
      (∃ k, (evictLoop maxBytes ts total st).1 = ts.take k ∧
        (evictLoop maxBytes ts total st).2.records.Perm (ts.drop k)) ∧
      ((get_total_cache_size (evictLoop maxBytes ts total st).2.records :
          Int) ≤ (maxBytes : Int) ∨
        (evictLoop maxBytes ts total st).2.records = [])
  | [], st, total, hperm, _, _ => by
    have hnil : st.records = [] := hperm.symm.eq_nil
    refine ⟨⟨0, by simp [evictLoop], by simp [evictLoop, hnil]⟩, ?_⟩
    right
    simp [evictLoop, hnil]
  | t :: ts, st, total, hperm, hnodup, htotal => by
    by_cases h : total ≤ (maxBytes : Int)
    · refine ⟨⟨0, by simp [evictLoop, h], ?_⟩, ?_⟩
      · simp only [evictLoop, if_pos h, List.drop_zero]
        exact hperm.symm
      · left
        simp only [evictLoop, if_pos h]
        rw [← htotal]
        exact h
    · have hdel : (delete_cached_track t.url st.records).Perm ts :=
        delete_perm_of_perm_cons hperm.symm hnodup
      have hnodup2 :
          ((delete_cached_track t.url st.records).map (·.url)).Nodup :=
        hnodup.sublist ((delete_sublist t.url st.records).map (·.url))
      have htot2 : total - (t.file_size : Int) =
          (get_total_cache_size (delete_cached_track t.url st.records) :
            Int) := by
        have e1 : get_total_cache_size st.records
            = get_total_cache_size (t :: ts) := total_perm hperm.symm
        have e2 : get_total_cache_size (delete_cached_track t.url st.records)
            = get_total_cache_size ts := total_perm hdel
        rw [htotal, e1, e2, total_cons]
        push_cast
        ring
      obtain ⟨⟨k, htr, hrec⟩, hbud⟩ := evictLoop_spec maxBytes ts
        ⟨delete_cached_track t.url st.records,
         tryRemoveFile st.fs t.file_path⟩
        (total - (t.file_size : Int)) hdel.symm hnodup2 htot2
      refine ⟨⟨k + 1, ?_, ?_⟩, ?_⟩
      · simp only [evictLoop, if_neg h, List.take_succ_cons]
        rw [htr]
      · simp only [evictLoop, if_neg h, List.drop_succ_cons]
        exact hrec
      · simp only [evictLoop, if_neg h]
        exact hbud

theorem evictLoop_last_small (maxBytes : Nat) :
    ∀ (ts : List CacheRecord) (st : CacheState) (total : Int)
      (r : CacheRecord),
      ts.Perm st.records → (st.records.map (·.url)).Nodup →
      total = (get_total_cache_size st.records : Int) →
      lastEntry ts = some r → (r.file_size : Int) ≤ (maxBytes : Int) →
      r ∈ (evictLoop maxBytes ts total st).2.records
  | [], _, _, r, _, _, _, hlast, _ => by simp [lastEntry] at hlast
  | [t], st, total, r, hperm, _, htotal, hlast, hsmall => by
    simp only [lastEntry, Option.some.injEq] at hlast
    subst hlast
    have htot : total = (t.file_size : Int) := by
      rw [htotal, total_perm hperm.symm, total_cons]
      simp [get_total_cache_size]
    have h : total ≤ (maxBytes : Int) := by rw [htot]; exact hsmall
    simp only [evictLoop, if_pos h]
    exact hperm.subset (List.mem_singleton_self t)
  | t :: t2 :: rest, st, total, r, hperm, hnodup, htotal, hlast, hsmall => by
    simp only [lastEntry] at hlast
    by_cases h : total ≤ (maxBytes : Int)
    · simp only [evictLoop, if_pos h]
      exact hperm.subset (List.Mem.tail _ (lastEntry_mem hlast))
    · have hdel : (delete_cached_track t.url st.records).Perm (t2 :: rest) :=
        delete_perm_of_perm_cons hperm.symm hnodup
      have hnodup2 :
          ((delete_cached_track t.url st.records).map (·.url)).Nodup :=
        hnodup.sublist ((delete_sublist t.url st.records).map (·.url))
      have htot2 : total - (t.file_size : Int) =
          (get_total_cache_size (delete_cached_track t.url st.records) :
            Int) := by
        have e1 : get_total_cache_size st.records
            = get_total_cache_size (t :: t2 :: rest) := total_perm hperm.symm
        have e2 : get_total_cache_size (delete_cached_track t.url st.records)
            = get_total_cache_size (t2 :: rest) := total_perm hdel
        rw [htotal, e1, e2, total_cons]
        push_cast
        ring
      simp only [evictLoop, if_neg h]
      exact evictLoop_last_small maxBytes (t2 :: rest)
        ⟨delete_cached_track t.url st.records,
         tryRemoveFile st.fs t.file_path⟩
        (total - (t.file_size : Int)) r hdel.symm hnodup2 htot2 hlast hsmall

theorem evictLoop_last_big (maxBytes : Nat) :
    ∀ (ts : List CacheRecord) (st : CacheState) (total : Int)
      (r : CacheRecord),
      ts.Perm st.records → (st.records.map (·.url)).Nodup →
      total = (get_total_cache_size st.records : Int) →
      lastEntry ts = some r → (maxBytes : Int) < (r.file_size : Int) →
      (evictLoop maxBytes ts total st).2.records = []
  | [], _, _, r, _, _, _, hlast, _ => by simp [lastEntry] at hlast
  | [t], st, total, r, hperm, hnodup, htotal, hlast, hbig => by
    simp only [lastEntry, Option.some.injEq] at hlast
    subst hlast
    have htot : total = (t.file_size : Int) := by
      rw [htotal, total_perm hperm.symm, total_cons]
      simp [get_total_cache_size]
    have h : ¬ total ≤ (maxBytes : Int) := by rw [htot]; omega
    have hdel : (delete_cached_track t.url st.records).Perm [] :=
      delete_perm_of_perm_cons hperm.symm hnodup
    have hnil : delete_cached_track t.url st.records = [] := hdel.eq_nil
    simp [evictLoop, h, hnil]
  | t :: t2 :: rest, st, total, r, hperm, hnodup, htotal, hlast, hbig => by
    simp only [lastEntry] at hlast
    have hrmem : r ∈ st.records :=
      hperm.subset (List.Mem.tail _ (lastEntry_mem hlast))
    have h : ¬ total ≤ (maxBytes : Int) := by
      have hle : r.file_size ≤ get_total_cache_size st.records :=
        size_le_total hrmem
      rw [htotal]
      omega
    have hdel : (delete_cached_track t.url st.records).Perm (t2 :: rest) :=
      delete_perm_of_perm_cons hperm.symm hnodup
    have hnodup2 :
        ((delete_cached_track t.url st.records).map (·.url)).Nodup :=
      hnodup.sublist ((delete_sublist t.url st.records).map (·.url))
    have htot2 : total - (t.file_size : Int) =
        (get_total_cache_size (delete_cached_track t.url st.records) :
          Int) := by
      have e1 : get_total_cache_size st.records
          = get_total_cache_size (t :: t2 :: rest) := total_perm hperm.symm
      have e2 : get_total_cache_size (delete_cached_track t.url st.records)
          = get_total_cache_size (t2 :: rest) := total_perm hdel
      rw [htotal, e1, e2, total_cons]
      push_cast
      ring
    simp only [evictLoop, if_neg h]
    exact evictLoop_last_big maxBytes (t2 :: rest)
      ⟨delete_cached_track t.url st.records,
       tryRemoveFile st.fs t.file_path⟩
      (total - (t.file_size : Int)) r hdel.symm hnodup2 htot2 hlast hbig

/-! ### Claim theorems -/

/-- C1: after put (register_cached_file = upsert followed immediately by
eviction) the sum of file_size over the remaining records is at most the
configured maximum (in particular zero records remain, with total 0, when
the newly inserted record alone exceeds the maximum); the record inserted by
that same put call is never evicted by that call unless it alone cannot fit
under the budget with no other records present. Hypotheses: the url column
is unique (database schema) and the wall clock is monotone, so every
existing last_played timestamp precedes now. -/
theorem c1_put_within_budget (maxBytes now : Nat)
    (url file_path title : String) (duration : Int) (st : CacheState)
    (size : Nat)
    (hnodup : (st.records.map (·.url)).Nodup)
    (hfresh : ∀ r ∈ st.records, r.last_played < now)
    (hfile : getsize st.fs file_path = some size) :
    ∃ tr st2,
      register_cached_file maxBytes now url file_path title duration st
        = some (tr, st2) ∧
      get_total_cache_size st2.records ≤ maxBytes ∧
      (size ≤ maxBytes →
        ∃ r ∈ st2.records, r.url = url ∧ r.file_path = file_path ∧
          r.file_size = size ∧ r.last_played = now) ∧
      (maxBytes < size → st2.records = []) := by
  obtain ⟨rN, hmem, h1, h2, h3, h4, hall⟩ :=
    upsert_spec url file_path title duration size now hfresh
  have hnodupU :
      ((upsert_cached_track url file_path title duration size now
        st.records).map (·.url)).Nodup := upsert_nodup hnodup
  have hreg :
      register_cached_file maxBytes now url file_path title duration st
        = some (enforce_cache_limit maxBytes
            ⟨upsert_cached_track url file_path title duration size now
              st.records, st.fs⟩) := by
    simp [register_cached_file, hfile]
  by_cases hb : (get_total_cache_size (upsert_cached_track url file_path
      title duration size now st.records) : Int) ≤ (maxBytes : Int)
  · have henf : enforce_cache_limit maxBytes
        ⟨upsert_cached_track url file_path title duration size now
          st.records, st.fs⟩
        = ([], ⟨upsert_cached_track url file_path title duration size now
            st.records, st.fs⟩) := by
      simp [enforce_cache_limit, hb]
    refine ⟨[], _, by rw [hreg, henf], ?_, ?_, ?_⟩
    · exact_mod_cast hb
    · intro _
      exact ⟨rN, hmem, h1, h2, h3, h4⟩
    · intro hbig
      exfalso
      have hle := size_le_total hmem
      rw [h3] at hle
      have hb2 : get_total_cache_size (upsert_cached_track url file_path
          title duration size now st.records) ≤ maxBytes := by
        exact_mod_cast hb
      omega
  · have henf : enforce_cache_limit maxBytes
        ⟨upsert_cached_track url file_path title duration size now
          st.records, st.fs⟩
        = evictLoop maxBytes
            (get_all_cached_tracks (upsert_cached_track url file_path title
              duration size now st.records))
            (get_total_cache_size (upsert_cached_track url file_path title
              duration size now st.records) : Int)
            ⟨upsert_cached_track url file_path title duration size now
              st.records, st.fs⟩ := by
      simp [enforce_cache_limit, hb]
    have hperm := get_all_perm (upsert_cached_track url file_path title
      duration size now st.records)
    have hlast : lastEntry (get_all_cached_tracks (upsert_cached_track url
        file_path title duration size now st.records)) = some rN := by
      apply lastEntry_of_sorted_max
        (get_all_sorted _) (hperm.symm.subset hmem)
      intro x hx
      rcases hall x (hperm.subset hx) with h | h
      · left; exact h
      · right; rw [h4]; exact h
    obtain ⟨⟨k, htr, hrec⟩, hbud⟩ := evictLoop_spec maxBytes
      (get_all_cached_tracks (upsert_cached_track url file_path title
        duration size now st.records))
      ⟨upsert_cached_track url file_path title duration size now
        st.records, st.fs⟩ _ hperm hnodupU rfl
    refine ⟨_, _, by rw [hreg, henf], ?_, ?_, ?_⟩
    · rcases hbud with hle | hnil
      · exact_mod_cast hle
      · rw [hnil]
        simp [get_total_cache_size]
    · intro hsmall
      have hin := evictLoop_last_small maxBytes
        (get_all_cached_tracks (upsert_cached_track url file_path title
          duration size now st.records))
        ⟨upsert_cached_track url file_path title duration size now
          st.records, st.fs⟩ _ rN hperm hnodupU rfl
        hlast (by rw [h3]; exact_mod_cast hsmall)
      exact ⟨rN, hin, h1, h2, h3, h4⟩
    · intro hbig
      exact evictLoop_last_big maxBytes
        (get_all_cached_tracks (upsert_cached_track url file_path title
          duration size now st.records))
        ⟨upsert_cached_track url file_path title duration size now
          st.records, st.fs⟩ _ rN hperm hnodupU rfl hlast
        (by rw [h3]; exact_mod_cast hbig)

/-- C1 witness: a put of a 5-byte file into an empty cache with a 10-byte
budget succeeds, ends within budget, and keeps the inserted record. -/
theorem c1_put_within_budget_witness :
    ∃ tr st2,
      register_cached_file 10 1 "u" "f" "t" 0 ⟨[], [("f", 5)]⟩
        = some (tr, st2) ∧
      get_total_cache_size st2.records ≤ 10 ∧
      ((5 : Nat) ≤ 10 →
        ∃ r ∈ st2.records, r.url = "u" ∧ r.file_path = "f" ∧
          r.file_size = 5 ∧ r.last_played = 1) ∧
      (10 < 5 → st2.records = []) :=
  c1_put_within_budget 10 1 "u" "f" "t" 0 ⟨[], [("f", 5)]⟩ 5
    (by simp) (by simp) (by decide)

/-- C2: starting from records whose sizes sum above the configured maximum,
evict_to_budget (enforce_cache_limit) ends with the recorded total at most
the maximum, or with exactly one record, the most recently played, that
alone still exceeds the maximum; the evicted records are exactly an oldest
segment of the records ordered by last_played, evicted in strictly
increasing recency order. The code in fact always reaches total ≤ maximum,
because it also evicts the final record when that record alone exceeds the
budget, so the first disjunct always holds. Hypotheses: unique urls and
pairwise distinct last_played timestamps. -/
theorem c2_evict_to_budget (maxBytes : Nat) (st : CacheState)
    (hnodup : (st.records.map (·.url)).Nodup)
    (hlp : (st.records.map (·.last_played)).Nodup)
    (hover : maxBytes < get_total_cache_size st.records) :
    (get_total_cache_size (enforce_cache_limit maxBytes st).2.records
        ≤ maxBytes
      ∨ ∃ r, (enforce_cache_limit maxBytes st).2.records = [r] ∧
          (∀ x ∈ st.records, x.last_played ≤ r.last_played) ∧
          maxBytes < r.file_size) ∧
    (∃ k, (enforce_cache_limit maxBytes st).1
        = (get_all_cached_tracks st.records).take k ∧
      (enforce_cache_limit maxBytes st).2.records.Perm
        ((get_all_cached_tracks st.records).drop k)) ∧
    List.Pairwise (fun a b => a.last_played < b.last_played)
      (enforce_cache_limit maxBytes st).1 := by
  have hb : ¬ (get_total_cache_size st.records : Int) ≤ (maxBytes : Int) := by
    exact_mod_cast Nat.not_le.mpr hover
  have henf : enforce_cache_limit maxBytes st
      = evictLoop maxBytes (get_all_cached_tracks st.records)
          (get_total_cache_size st.records : Int) st := by
    simp [enforce_cache_limit, hb]
  obtain ⟨⟨k, htr, hrec⟩, hbud⟩ := evictLoop_spec maxBytes
    (get_all_cached_tracks st.records) st _ (get_all_perm st.records)
    hnodup rfl
  have hstrict : List.Pairwise (fun a b => a.last_played < b.last_played)
      (get_all_cached_tracks st.records) := by
    have hsor := get_all_sorted st.records
    have hmapnd :
        ((get_all_cached_tracks st.records).map (·.last_played)).Nodup :=
      (((get_all_perm st.records).map (·.last_played)).symm).nodup hlp
    have hne : List.Pairwise
        (fun a b : CacheRecord => a.last_played ≠ b.last_played)
        (get_all_cached_tracks st.records) :=
      List.pairwise_map.mp hmapnd
    exact (hsor.and hne).imp fun h => Nat.lt_of_le_of_ne h.1 h.2
  refine ⟨?_, ⟨k, by rw [henf]; exact htr, by rw [henf]; exact hrec⟩, ?_⟩
  · left
    rcases hbud with hle | hnil
    · rw [henf]
      exact_mod_cast hle
    · rw [henf, hnil]
      simp [get_total_cache_size]
  · rw [henf, htr]
    exact hstrict.sublist (List.take_sublist k _)

/-- C2 witness: two records of sizes 6 and 7 against a budget of 3: both are
evicted oldest first and the cache ends empty, within budget. -/
theorem c2_evict_to_budget_witness :
    (get_total_cache_size (enforce_cache_limit 3
        ⟨[⟨"a", "pa", "t", 0, 6, 0, 1⟩, ⟨"b", "pb", "t", 0, 7, 0, 2⟩],
          []⟩).2.records ≤ 3
      ∨ ∃ r, (enforce_cache_limit 3
          ⟨[⟨"a", "pa", "t", 0, 6, 0, 1⟩, ⟨"b", "pb", "t", 0, 7, 0, 2⟩],
            []⟩).2.records = [r] ∧
          (∀ x ∈ [⟨"a", "pa", "t", 0, 6, 0, 1⟩,
            (⟨"b", "pb", "t", 0, 7, 0, 2⟩ : CacheRecord)],
            x.last_played ≤ r.last_played) ∧
          3 < r.file_size) ∧
    (∃ k, (enforce_cache_limit 3
        ⟨[⟨"a", "pa", "t", 0, 6, 0, 1⟩, ⟨"b", "pb", "t", 0, 7, 0, 2⟩],
          []⟩).1
        = (get_all_cached_tracks [⟨"a", "pa", "t", 0, 6, 0, 1⟩,
            ⟨"b", "pb", "t", 0, 7, 0, 2⟩]).take k ∧
      (enforce_cache_limit 3
        ⟨[⟨"a", "pa", "t", 0, 6, 0, 1⟩, ⟨"b", "pb", "t", 0, 7, 0, 2⟩],
          []⟩).2.records.Perm
        ((get_all_cached_tracks [⟨"a", "pa", "t", 0, 6, 0, 1⟩,
            ⟨"b", "pb", "t", 0, 7, 0, 2⟩]).drop k)) ∧
    List.Pairwise (fun a b => a.last_played < b.last_played)
      (enforce_cache_limit 3
        ⟨[⟨"a", "pa", "t", 0, 6, 0, 1⟩, ⟨"b", "pb", "t", 0, 7, 0, 2⟩],
          []⟩).1 :=
  c2_evict_to_budget 3
    ⟨[⟨"a", "pa", "t", 0, 6, 0, 1⟩, ⟨"b", "pb", "t", 0, 7, 0, 2⟩], []⟩
    (by decide) (by decide) (by decide)

/-- C8: during eviction a failed file removal (the file already being gone)
is tolerated and not fatal: the evicted trace and the surviving records are
entirely independent of the file system contents, so the record of a
missing file is still deleted and eviction continues exactly as if the file
had been present; and every evicted record really is gone from the index. -/
theorem c8_eviction_tolerates_missing_files (maxBytes : Nat)
    (recs : List CacheRecord) (fs fs2 : List (String × Nat)) :
    ((enforce_cache_limit maxBytes ⟨recs, fs⟩).1
        = (enforce_cache_limit maxBytes ⟨recs, fs2⟩).1 ∧
      (enforce_cache_limit maxBytes ⟨recs, fs⟩).2.records
        = (enforce_cache_limit maxBytes ⟨recs, fs2⟩).2.records) ∧
    ∀ t ∈ (enforce_cache_limit maxBytes ⟨recs, fs⟩).1,
      t.url ∉
        (enforce_cache_limit maxBytes ⟨recs, fs⟩).2.records.map (·.url) := by
  constructor
  · by_cases hb : (get_total_cache_size recs : Int) ≤ (maxBytes : Int)
    · simp [enforce_cache_limit, hb]
    · simp only [enforce_cache_limit, if_neg hb]
      exact evictLoop_fs_eq maxBytes _ _ recs fs fs2
  · intro t ht
    by_cases hb : (get_total_cache_size recs : Int) ≤ (maxBytes : Int)
    · simp [enforce_cache_limit, hb] at ht
    · simp only [enforce_cache_limit, if_neg hb] at ht ⊢
      exact evictLoop_evicted_deleted maxBytes _ _ _ t ht

/-- C8 witness: with an empty file system (every backing file missing) the
single over-budget record is still evicted and deleted from the index. -/
theorem c8_eviction_tolerates_missing_files_witness :
    (⟨"a", "p", "t", 0, 5, 0, 1⟩ : CacheRecord).url ∉
      (enforce_cache_limit 3
        ⟨[⟨"a", "p", "t", 0, 5, 0, 1⟩], []⟩).2.records.map (·.url) :=
  (c8_eviction_tolerates_missing_files 3 [⟨"a", "p", "t", 0, 5, 0, 1⟩]
    [] []).2 ⟨"a", "p", "t", 0, 5, 0, 1⟩ (by decide)

/-- C5: a get on a record whose backing file is absent deletes the record
and reports a miss with no error; an immediately repeated get is again a
clean miss with no further side effect; a get on a record whose file exists
returns the path and refreshes the last_played timestamp. -/
theorem c5_get_self_healing (now now2 : Nat) (url : String)
    (st : CacheState) :
    (∀ row, get_cached_track url st.records = some row →
      isfile st.fs row.file_path = false →
      get_cached_path now url st
          = (none, ⟨delete_cached_track url st.records, st.fs⟩) ∧
      get_cached_path now2 url ⟨delete_cached_track url st.records, st.fs⟩
          = (none, ⟨delete_cached_track url st.records, st.fs⟩)) ∧
    (∀ row, get_cached_track url st.records = some row →
      isfile st.fs row.file_path = true →
      get_cached_path now url st
          = (some row.file_path,
             ⟨touch_cached_track url now st.records, st.fs⟩) ∧
      get_cached_track url (touch_cached_track url now st.records)
          = some { row with last_played := now }) := by
  constructor
  · intro row hrow hmiss
    constructor
    · simp [get_cached_path, hrow, hmiss]
    · simp [get_cached_path, get_cached_track_delete_self]
  · intro row hrow hfile
    constructor
    · simp [get_cached_path, hrow, hfile]
    · rw [get_cached_track_touch, hrow]
      rfl

/-- C5 witness: a cache whose single record points at a missing file heals
itself on get and stays healed on the second get. -/
theorem c5_get_self_healing_witness :
    get_cached_path 5 "u" ⟨[⟨"u", "p", "t", 0, 1, 0, 0⟩], []⟩
        = (none, ⟨delete_cached_track "u" [⟨"u", "p", "t", 0, 1, 0, 0⟩],
            []⟩) ∧
    get_cached_path 6 "u"
        ⟨delete_cached_track "u" [⟨"u", "p", "t", 0, 1, 0, 0⟩], []⟩
        = (none, ⟨delete_cached_track "u" [⟨"u", "p", "t", 0, 1, 0, 0⟩],
            []⟩) :=
  (c5_get_self_healing 5 6 "u" ⟨[⟨"u", "p", "t", 0, 1, 0, 0⟩], []⟩).1
    ⟨"u", "p", "t", 0, 1, 0, 0⟩ (by decide) (by decide)

/-- C6: the claim states that skip stops the engine whenever the engine is
active (playing or paused) and never mutates the queue. Evaluating the code
on a session whose engine is paused: the session is active by the very guard
its callers use, yet GuildQueue.skip issues no stop and returns the state
unchanged, because it tests is_playing() only and a paused voice client is
not playing. The pending sequence and current slot are indeed untouched. -/
theorem c6_skip_paused_no_stop :
    engineActive (some .paused) = true ∧
    GuildQueue.skip ⟨[⟨"b", "ub", 20, 1, none⟩],
        some ⟨"a", "ua", 10, 1, none⟩, some .paused⟩
      = (⟨[⟨"b", "ub", 20, 1, none⟩], some ⟨"a", "ua", 10, 1, none⟩,
          some .paused⟩, false) :=
  ⟨rfl, rfl⟩

/-- C7: add_next accumulates at the head of pending in last-in first-out
order, and advance pops the pending head into current, so
add_next A; add_next B; advance yields current = B; advance sets current to
none when pending is empty. -/
theorem c7_add_next_lifo (gq : GuildQueue) (A B : SongEntry) :
    ((gq.add_next A).add_next B).queue = B :: A :: gq.queue ∧
    (advance ((gq.add_next A).add_next B)).current = some B ∧
    (advance ((gq.add_next A).add_next B)).queue = A :: gq.queue ∧
    (∀ g : GuildQueue, g.queue = [] → (advance g).current = none) ∧
    (∀ (g : GuildQueue) (e : SongEntry) (rest : List SongEntry),
      g.queue = e :: rest →
        (advance g).current = some e ∧ (advance g).queue = rest) := by
  refine ⟨rfl, rfl, rfl, ?_, ?_⟩
  · intro g hg
    simp [advance, GuildQueue.pop_next, hg]
  · intro g e rest hg
    constructor <;> simp [advance, GuildQueue.pop_next, hg]

/-- C7 witness: advance on an empty queue clears current. -/
theorem c7_add_next_lifo_witness :
    (advance ⟨[], some ⟨"a", "ua", 1, 1, none⟩, none⟩).current = none :=
  (c7_add_next_lifo ⟨[], some ⟨"a", "ua", 1, 1, none⟩, none⟩
    ⟨"x", "ux", 1, 1, none⟩ ⟨"y", "uy", 1, 1, none⟩).2.2.2.1 _ rfl

/-! ### Registry lemmas for C9 -/

theorem lookupGuild_append_none {gid : Nat} {q : GuildQueue} :
    ∀ {l : List (Nat × GuildQueue)}, lookupGuild gid l = none →
      lookupGuild gid (l ++ [(gid, q)]) = some q := by
  intro l
  induction l with
  | nil => intro _; simp [lookupGuild]
  | cons a as ih =>
    intro h
    by_cases hg : a.1 = gid
    · simp [lookupGuild, hg] at h
    · simpa [lookupGuild, hg] using ih (by simpa [lookupGuild, hg] using h)

theorem lookupGuild_update_self {gid : Nat} {f : GuildQueue → GuildQueue} :
    ∀ {l : List (Nat × GuildQueue)} {q : GuildQueue},
      lookupGuild gid l = some q →
      lookupGuild gid (updateGuild gid f l) = some (f q) := by
  intro l
  induction l with
  | nil => intro q h; simp [lookupGuild] at h
  | cons a as ih =>
    intro q h
    by_cases hg : a.1 = gid
    · simp only [lookupGuild, if_pos hg, Option.some.injEq] at h
      subst h
      simp [updateGuild, hg, lookupGuild]
    · simp only [lookupGuild, if_neg hg] at h
      simpa [updateGuild, hg, lookupGuild] using ih h

theorem lookupGuild_update_other {gid gid2 : Nat}
    {f : GuildQueue → GuildQueue} (hne : gid ≠ gid2) :
    ∀ l : List (Nat × GuildQueue),
      lookupGuild gid2 (updateGuild gid f l) = lookupGuild gid2 l := by
  intro l
  induction l with
  | nil => simp [updateGuild]
  | cons a as ih =>
    by_cases hg : a.1 = gid
    · have hg2 : a.1 ≠ gid2 := by rw [hg]; exact hne
      simp [updateGuild, hg, lookupGuild, hg2, hne]
    · simp only [updateGuild, if_neg hg]
      by_cases hg2 : a.1 = gid2
      · simp [lookupGuild, hg2]
      · simpa [lookupGuild, hg2] using ih

theorem removeGuild_none {gid : Nat} :
    ∀ {l : List (Nat × GuildQueue)}, lookupGuild gid l = none →
      removeGuild gid l = l := by
  intro l
  induction l with
  | nil => intro _; rfl
  | cons a as ih =>
    intro h
    by_cases hg : a.1 = gid
    · simp [lookupGuild, hg] at h
    · simp only [lookupGuild, if_neg hg] at h
      simp [removeGuild, hg, ih h]

/-- C9: the registry creates a GuildQueue lazily on the first get and later
gets return the stored queue unchanged, so interleaved operations act on one
shared state (an update through one get is seen by the next); operations on
one guild never change the entry of a different guild; and remove of an
unregistered guild id is a no-op. -/
theorem c9_registry_isolation (m : QueueManager) (gid gid2 : Nat)
    (f : GuildQueue → GuildQueue) :
    (lookupGuild gid m.guilds = none →
      QueueManager.get m gid
          = (GuildQueue.init, ⟨m.guilds ++ [(gid, GuildQueue.init)]⟩) ∧
      lookupGuild gid (m.guilds ++ [(gid, GuildQueue.init)])
          = some GuildQueue.init) ∧
    (∀ q, lookupGuild gid m.guilds = some q →
      QueueManager.get m gid = (q, m)) ∧
    (∀ q, lookupGuild gid m.guilds = some q →
      lookupGuild gid (QueueManager.mutate m gid f).guilds = some (f q)) ∧
    (gid ≠ gid2 →
      lookupGuild gid2 (QueueManager.mutate m gid f).guilds
        = lookupGuild gid2 m.guilds) ∧
    (lookupGuild gid m.guilds = none → QueueManager.remove m gid = m) := by
  refine ⟨?_, ?_, ?_, ?_, ?_⟩
  · intro h
    exact ⟨by simp [QueueManager.get, h], lookupGuild_append_none h⟩
  · intro q h
    simp [QueueManager.get, h]
  · intro q h
    exact lookupGuild_update_self h
  · intro hne
    exact lookupGuild_update_other hne m.guilds
  · intro h
    simp [QueueManager.remove, removeGuild_none h]

/-- C9 witness: on an empty registry, get lazily creates the queue for
guild 7 and stores it. -/
theorem c9_registry_isolation_witness :
    QueueManager.get ⟨[]⟩ 7
        = (GuildQueue.init, ⟨[] ++ [(7, GuildQueue.init)]⟩) ∧
    lookupGuild 7 ([] ++ [(7, GuildQueue.init)]) = some GuildQueue.init :=
  (c9_registry_isolation ⟨[]⟩ 7 8 id).1 rfl

/-- C3 counterexample: the claim describes an ordered list of extraction
profiles differing in format selector and client identity tried in
sequence, but metadata resolution constructs exactly one options dict, so
no two tried profiles differ in anything. -/
theorem c3_single_profile_counterexample :
    ¬ ∃ p, p ∈ metadataProfiles ∧ ∃ q, q ∈ metadataProfiles ∧ p ≠ q := by
  rintro ⟨p, hp, q, hq, hne⟩
  rw [metadataProfiles, List.mem_singleton] at hp hq
  exact hne (hp.trans hq.symm)

/-- C3 amended: metadata resolution performs exactly one extraction attempt
with the single fixed profile _YTDL_OPTIONS; a successful result is
returned verbatim as if it were the only profile tried (it is); and when
the attempt fails, that only (hence most recent) failure is surfaced to the
caller: a provider exception propagates, and a None result becomes the
ValueError. There is no multi-profile cascade and no alternate-provider
retry. -/
theorem c3_single_profile_resolution (extract : Extractor)
    (query : String) :
    metadataProfiles = [_YTDL_OPTIONS] ∧
    (∀ d, extract _YTDL_OPTIONS query = .ok (some d) →
      _extract_info extract query = .ok d) ∧
    (∀ e, extract _YTDL_OPTIONS query = .error e →
      _extract_info extract query = .error (.provider e)) ∧
    (extract _YTDL_OPTIONS query = .ok none →
      _extract_info extract query
        = .error (.valueErr ("Could not retrieve audio for: " ++ query))) := by
  refine ⟨rfl, ?_, ?_, ?_⟩
  · intro d h
    simp [_extract_info, h]
  · intro e h
    simp [_extract_info, h]
  · intro h
    simp [_extract_info, h]

/-- C3 witness: a provider that succeeds on the single profile has its
result returned verbatim. -/
theorem c3_single_profile_resolution_witness :
    _extract_info
        (fun _ _ => Except.ok
          (some ⟨none, ⟨some "T", some "u", some "w", some 5, none⟩⟩)) "q"
      = .ok ⟨none, ⟨some "T", some "u", some "w", some 5, none⟩⟩ :=
  (c3_single_profile_resolution
    (fun _ _ => Except.ok
      (some ⟨none, ⟨some "T", some "u", some "w", some 5, none⟩⟩)) "q").2.1
    _ rfl

theorem normalizeMeta_props (d : MetaDict) :
    (normalizeMeta d).duration = d.duration.getD 0 ∧
    (d.duration = none → (normalizeMeta d).duration = 0) ∧
    (d.title = none → (normalizeMeta d).title = "Unknown") ∧
    (∀ s, d.webpage_url = some s → s ≠ "" →
      (normalizeMeta d).url = some s) ∧
    (d.webpage_url = none → (normalizeMeta d).url = d.url) ∧
    (d.webpage_url = some "" → (normalizeMeta d).url = d.url) := by
  refine ⟨rfl, ?_, ?_, ?_, ?_, ?_⟩
  · intro h
    simp [normalizeMeta, h]
  · intro h
    simp [normalizeMeta, h]
  · intro s h hne
    simp [normalizeMeta, pyOrStr, h, hne]
  · intro h
    simp [normalizeMeta, pyOrStr, h]
  · intro h
    simp [normalizeMeta, pyOrStr, h]

/-- C10: the metadata returned by fetch_metadata_only is exactly the
normalization of the dict the extraction provider actually produced (after
the entries unwrap), and the metadata list returned by
fetch_playlist_metadata contains exactly the normalizations of the actual
non-None upstream entries: relative to that actual upstream dict d, the
returned duration is the integer int(x or 0), so a missing or null upstream
duration maps to 0 instead of raising; a missing upstream title maps to
Unknown; and the returned url is the upstream webpage_url when present and
non-empty, falling back to the raw url field otherwise. -/
theorem c10_metadata_normalized (extract : Extractor) (query : String) :
    (∀ data d, extract _YTDL_OPTIONS query = .ok (some data) →
      unwrapFirstEntry data = .ok d →
      fetch_metadata_only extract query = .ok (normalizeMeta d) ∧
      ((normalizeMeta d).duration = d.duration.getD 0 ∧
       (d.duration = none → (normalizeMeta d).duration = 0) ∧
       (d.title = none → (normalizeMeta d).title = "Unknown") ∧
       (∀ s, d.webpage_url = some s → s ≠ "" →
         (normalizeMeta d).url = some s) ∧
       (d.webpage_url = none → (normalizeMeta d).url = d.url) ∧
       (d.webpage_url = some "" → (normalizeMeta d).url = d.url))) ∧
    (∀ data, extract _YTDL_PLAYLIST_OPTIONS query = .ok (some data) →
      ∃ ms, fetch_playlist_metadata extract query = .ok ms ∧
        (∀ d, some d ∈ data.entries.getD [] →
          normalizeMeta d ∈ ms ∧
          ((normalizeMeta d).duration = d.duration.getD 0 ∧
           (d.duration = none → (normalizeMeta d).duration = 0) ∧
           (d.title = none → (normalizeMeta d).title = "Unknown") ∧
           (∀ s, d.webpage_url = some s → s ≠ "" →
             (normalizeMeta d).url = some s) ∧
           (d.webpage_url = none → (normalizeMeta d).url = d.url) ∧
           (d.webpage_url = some "" → (normalizeMeta d).url = d.url))) ∧
        (∀ m ∈ ms, ∃ d, some d ∈ data.entries.getD []
          ∧ m = normalizeMeta d)) := by
  constructor
  · intro data d hdata hun
    refine ⟨?_, normalizeMeta_props d⟩
    simp [fetch_metadata_only, _extract_info, hdata, hun]
  · intro data hdata
    refine ⟨(data.entries.getD []).filterMap (fun e => e.map normalizeMeta),
      ?_, ?_, ?_⟩
    · simp [fetch_playlist_metadata, _extract_playlist, hdata]
    · intro d hd
      exact ⟨List.mem_filterMap.mpr ⟨some d, hd, rfl⟩,
        normalizeMeta_props d⟩
    · intro m hm
      obtain ⟨e, he, hme⟩ := List.mem_filterMap.mp hm
      cases e with
      | none => simp at hme
      | some d =>
        simp only [Option.map_some', Option.some.injEq] at hme
        exact ⟨d, he, hme.symm⟩

/-- C10 witness: a provider that actually returns a dict with a missing
title, missing webpage_url, and missing duration: fetch_metadata_only
returns its normalization, with duration 0, title Unknown, and the raw
url. -/
theorem c10_metadata_normalized_witness :
    fetch_metadata_only
        (fun _ _ => Except.ok
          (some ⟨none, ⟨none, some "raw", none, none, none⟩⟩)) "q"
      = .ok (normalizeMeta ⟨none, some "raw", none, none, none⟩) ∧
    ((normalizeMeta ⟨none, some "raw", none, none, none⟩).duration
        = (⟨none, some "raw", none, none, none⟩ : MetaDict).duration.getD 0 ∧
     ((⟨none, some "raw", none, none, none⟩ : MetaDict).duration = none →
       (normalizeMeta ⟨none, some "raw", none, none, none⟩).duration = 0) ∧
     ((⟨none, some "raw", none, none, none⟩ : MetaDict).title = none →
       (normalizeMeta ⟨none, some "raw", none, none, none⟩).title
         = "Unknown") ∧
     (∀ s, (⟨none, some "raw", none, none, none⟩ : MetaDict).webpage_url
         = some s → s ≠ "" →
       (normalizeMeta ⟨none, some "raw", none, none, none⟩).url = some s) ∧
     ((⟨none, some "raw", none, none, none⟩ : MetaDict).webpage_url = none →
       (normalizeMeta ⟨none, some "raw", none, none, none⟩).url
         = (⟨none, some "raw", none, none, none⟩ : MetaDict).url) ∧
     ((⟨none, some "raw", none, none, none⟩ : MetaDict).webpage_url
         = some "" →
       (normalizeMeta ⟨none, some "raw", none, none, none⟩).url
         = (⟨none, some "raw", none, none, none⟩ : MetaDict).url)) :=
  (c10_metadata_normalized
    (fun _ _ => Except.ok
      (some ⟨none, ⟨none, some "raw", none, none, none⟩⟩)) "q").1
    ⟨none, ⟨none, some "raw", none, none, none⟩⟩
    ⟨none, some "raw", none, none, none⟩ rfl rfl

/-- C4: resolve-for-playback attempts, in order: an existing local file
played directly; a cache hit played from the cached file with recency
refreshed; on a miss, a download that registers the file in the cache and
plays it; and on any download failure (exception, or the downloaded file
absent) a direct network stream that leaves the cache untouched; an error
reaches the caller only when the download path and the streaming path both
fail. -/
theorem c4_resolution_order (maxBytes now : Nat) (dl : Downloader)
    (stream : Extractor) (query : String) (st : CacheState) :
    (isfile st.fs query = true →
      from_query maxBytes now dl stream query st
        = .ok (.localFile query, st)) ∧
    (∀ p st1, isfile st.fs query = false →
      get_cached_path now query st = (some p, st1) →
      from_query maxBytes now dl stream query st = .ok (.cachedHit p, st1)) ∧
    (∀ st1 out size, isfile st.fs query = false →
      get_cached_path now query st = (none, st1) →
      dl query = .ok out → out.written = some size →
      ∃ tr st3,
        register_cached_file maxBytes now (registerUrl out.data query)
          out.file (out.data.title.getD "Unknown")
          (out.data.duration.getD 0)
          ⟨st1.records, setFile st1.fs out.file size⟩ = some (tr, st3) ∧
        from_query maxBytes now dl stream query st
          = .ok (.downloaded out.file, st3)) ∧
    (∀ st1 data d u, isfile st.fs query = false →
      get_cached_path now query st = (none, st1) →
      ((∃ e, dl query = .error e) ∨
        (∃ out, dl query = .ok out ∧ out.written = none)) →
      _extract_info stream query = .ok data →
      unwrapFirstEntry data = .ok d → d.url = some u →
      from_query maxBytes now dl stream query st = .ok (.streamed u, st1)) ∧
    (∀ st1 e e2, isfile st.fs query = false →
      get_cached_path now query st = (none, st1) →
      dl query = .error e →
      _extract_info stream query = .error e2 →
      from_query maxBytes now dl stream query st = .error e2) := by
  refine ⟨?_, ?_, ?_, ?_, ?_⟩
  · intro h
    simp [from_query, h]
  · intro p st1 h0 hc
    simp [from_query, h0, hc]
  · intro st1 out size h0 hc hdl hw
    have hreg : register_cached_file maxBytes now
        (registerUrl out.data query) out.file
        (out.data.title.getD "Unknown") (out.data.duration.getD 0)
        ⟨st1.records, setFile st1.fs out.file size⟩
        = some ((enforce_cache_limit maxBytes
            ⟨upsert_cached_track (registerUrl out.data query) out.file
              (out.data.title.getD "Unknown") (out.data.duration.getD 0)
              size now st1.records, setFile st1.fs out.file size⟩).1,
          (enforce_cache_limit maxBytes
            ⟨upsert_cached_track (registerUrl out.data query) out.file
              (out.data.title.getD "Unknown") (out.data.duration.getD 0)
              size now st1.records, setFile st1.fs out.file size⟩).2) := by
      simp [register_cached_file, getsize_setFile_self]
    refine ⟨_, _, hreg, ?_⟩
    simp [from_query, h0, hc, attemptDownload, hdl, hw, hreg]
  · intro st1 data d u h0 hc hfail hstr hun hurl
    have hdlnone : attemptDownload maxBytes now dl query st1 = none := by
      rcases hfail with ⟨e, he⟩ | ⟨out, hout, hw⟩
      · simp [attemptDownload, he]
      · simp [attemptDownload, hout, hw]
    simp [from_query, h0, hc, hdlnone, hstr, hun, hurl]
  · intro st1 e e2 h0 hc hdl hstr
    simp [from_query, h0, hc, attemptDownload, hdl, hstr]

/-- C4 witness: an identifier that is an existing local file path is played
directly, before any cache or network path is consulted. -/
theorem c4_resolution_order_witness :
    from_query 10 1 (fun _ => Except.error "x") (fun _ _ => Except.error "x")
        "q" ⟨[], [("q", 1)]⟩
      = .ok (.localFile "q", ⟨[], [("q", 1)]⟩) :=
  (c4_resolution_order 10 1 (fun _ => Except.error "x")
    (fun _ _ => Except.error "x") "q" ⟨[], [("q", 1)]⟩).1 (by decide)

end MusicBot
